import Mathlib

/-!
Verification development for the STIR low-degree-test engine.

The repository's own sources contain the wire-format container StirProof,
the size helper stir_proof_size, and the protocol integration tests; the
protocol core (parameter derivation, committer, prover, verifier) lives in
submodules that are declared but not present, so it is modelled here from
the specification.  External collaborators (field arithmetic, the
polynomial-utilities folding kernels, the Merkle commitment scheme, the
Fiat-Shamir transcript, serialization of field elements) are modelled by
their interfaces, as the specification scopes them out of the core.
-/

namespace StirVerification

/-- Modelled from the spec: the soundness regime enumeration of the missing
parameters module (spec 4.1): unique decoding, proven list decoding, or
conjectured list-decoding capacity. -/
inductive SoundnessType
| UniqueDecoding
| ProvableList
| ConjectureList
deriving DecidableEq, Repr

/-- Modelled from the spec: the fold-optimisation selector of the missing
parameters module (spec 9): direct re-evaluation versus the
precomputed-coefficient prover-side optimisation. -/
inductive FoldType
| Naive
| ProverHelps
deriving DecidableEq, Repr

/-- Modelled from the spec: the univariate parameter record of the missing
parameters module; it carries the base-two log of the degree bound. -/
structure UnivariateParameters where
  logDegree : Nat
deriving DecidableEq, Repr

/-- Modelled from the spec: the user-facing protocol parameters of the
missing parameters module, mirroring the fields the integration test sets
(the Merkle hash parameters and the proof-of-work marker type are external
collaborators and carry no protocol-semantic data). -/
structure ProtocolParameters where
  initialStatement : Bool
  securityLevel : Nat
  powBits : Nat
  foldingFactor : Nat
  foldOptimisation : FoldType
  soundnessType : SoundnessType
  startingLogInvRate : Nat
deriving DecidableEq, Repr

/-- Modelled from the spec: the configuration error raised by parameter
derivation (spec 4.1 / 7): too few rounds, a non-positive derived domain
size, or a violated regime minimum-rate constraint. -/
inductive ConfigError
| NotEnoughRounds
| DomainTooSmall
| RateTooLow
deriving DecidableEq, Repr

/-- Modelled from the spec: the fully resolved parameter set produced by
StirConfig::new in the missing parameters module. -/
structure StirConfig where
  logDegree : Nat
  foldingFactor : Nat
  securityLevel : Nat
  powBits : Nat
  startingLogInvRate : Nat
  soundnessType : SoundnessType
  foldOptimisation : FoldType
  numRounds : Nat
deriving DecidableEq, Repr

/-- Modelled from the spec: the regime's minimum starting log inverse rate
relative to the folding factor (spec 4.1 names the constraint but not its
formula; every regime here demands a blow-up of at least one). -/
def regimeMinLogInvRate : SoundnessType → Nat → Nat :=
  fun _ _ => 1

/-- Modelled from the spec: parameter derivation (StirConfig::new of the
missing parameters module).  It fails exactly when the degree and folding
factor cannot produce at least one round, when the derived final domain
size would be non-positive, or when the regime's minimum-rate constraint is
violated; otherwise it resolves the round count. -/
def StirConfig.new (up : UnivariateParameters) (pp : ProtocolParameters) :
    Except ConfigError StirConfig :=
  if up.logDegree / pp.foldingFactor < 1 then
    Except.error ConfigError.NotEnoughRounds
  else if up.logDegree + pp.startingLogInvRate <
      pp.foldingFactor * (up.logDegree / pp.foldingFactor - 1) + 1 then
    Except.error ConfigError.DomainTooSmall
  else if pp.startingLogInvRate <
      regimeMinLogInvRate pp.soundnessType pp.foldingFactor then
    Except.error ConfigError.RateTooLow
  else
    Except.ok
      { logDegree := up.logDegree
        foldingFactor := pp.foldingFactor
        securityLevel := pp.securityLevel
        powBits := pp.powBits
        startingLogInvRate := pp.startingLogInvRate
        soundnessType := pp.soundnessType
        foldOptimisation := pp.foldOptimisation
        numRounds := up.logDegree / pp.foldingFactor }

/-- Modelled from the spec: the well-formedness facts parameter derivation
guarantees about a resolved configuration. -/
def StirConfig.Valid (cfg : StirConfig) : Prop :=
  1 ≤ cfg.foldingFactor ∧ 1 ≤ cfg.startingLogInvRate ∧
    cfg.numRounds = cfg.logDegree / cfg.foldingFactor ∧ 1 ≤ cfg.numRounds

instance (cfg : StirConfig) : Decidable cfg.Valid := by
  unfold StirConfig.Valid; infer_instance

/-- Modelled from the spec: the log of the round-i evaluation-domain size;
the initial domain has size two to the (degree bound plus starting rate)
and each fold shrinks the domain by the folding factor (spec 4.2, 4.3). -/
def logDomain (cfg : StirConfig) (i : Nat) : Nat :=
  cfg.logDegree + cfg.startingLogInvRate - cfg.foldingFactor * i

/-- Modelled from the spec: the per-round query count.  The spec fixes only
its shape: queries trade off against proof-of-work bits and later rounds
may need fewer queries (spec 4.1); the exact regime formula is external. -/
def nQueries (cfg : StirConfig) (i : Nat) : Nat :=
  Nat.max 1 ((cfg.securityLevel - cfg.powBits) / (cfg.startingLogInvRate + i + 1))

/-- Modelled from the spec: the claimed degree bound (log) on the final
disclosed polynomial after all folds. -/
def finalLogDegree (cfg : StirConfig) : Nat :=
  cfg.logDegree - cfg.foldingFactor * (cfg.numRounds - 1)

/-- Modelled from the spec: the deterministic hash behind the Fiat-Shamir
transcript collaborator; the transcript is the ordered list of absorbed
items and every squeezed challenge is a hash of a prefix of it (spec 6). -/
def thash (t : List (List Nat)) : Nat :=
  t.foldl (fun a item => item.foldl (fun b x => b * 1000003 + x + 7) (a * 13 + 3)) 5

/-- Modelled from the spec: the m-th challenge squeezed from transcript
state t; squeezing is a pure function of the absorbed history. -/
def squeezeAt (t : List (List Nat)) (m : Nat) : Nat :=
  thash ([m] :: t)

/-- Modelled from the spec: the proof-of-work check of the transcript
collaborator: the nonce must cancel the transcript hash modulo two to the
difficulty bits. -/
def checkPow (t : List (List Nat)) (nonce bits : Nat) : Bool :=
  (thash t + nonce) % 2 ^ bits == 0

/-- Modelled from the spec: proof-of-work grinding - the search for a nonce
satisfying checkPow; deterministic here since the check is arithmetic. -/
def grind (t : List (List Nat)) (bits : Nat) : Nat :=
  (2 ^ bits - thash t % 2 ^ bits) % 2 ^ bits

/-- The authentication multi-path of the external Merkle collaborator, as
referenced by StirProof in the sources; modelled by the batch of leaf
indexes it authenticates. -/
structure MultiPath where
  leafIndexes : List Nat
deriving DecidableEq, Repr

/-- The proof container from the sources: it only includes the
authentication paths, an ordered sequence of (multi-path, opened leaf
groups) pairs. -/
structure StirProof (F : Type) where
  merkleProofs : List (MultiPath × List (List F))

/-- The round-b entry of a proof, with an empty entry as default. -/
def entryAt {F : Type} (pf : StirProof F) (b : Nat) : MultiPath × List (List F) :=
  pf.merkleProofs.getD b (⟨[]⟩, [])

/-- The external polynomial-utilities collaborator (spec 1, 6): evaluation
of a coefficient list on the domain of a given log-size, the two
coefficient-level folding strategies, and the folding kernel that collapses
one coset of evaluations by a challenge. -/
structure PolyUtils (F : Type) where
  evaluate : List F → Nat → List F
  foldPolyNaive : List F → F → List F
  foldPolyHelps : List F → F → List F
  foldEval : List F → F → F

/-- The contracts the protocol relies on from the polynomial-utilities
collaborator: evaluation fills the whole domain; the two folding
strategies agree (spec 9: a performance variant, not a semantic one);
folding divides the degree bound by the folding arity; and the fold
relation of spec 4.4: evaluating the folded polynomial agrees pointwise
with the folding kernel applied to the cosets of the original
evaluations. -/
structure PolyUtils.Lawful {F : Type} (PU : PolyUtils F) (f : Nat) : Prop where
  eval_length : ∀ p ℓ, (PU.evaluate p ℓ).length = 2 ^ ℓ
  helps_eq_naive : ∀ p r, PU.foldPolyHelps p r = PU.foldPolyNaive p r
  fold_degree : ∀ p r d, p.length ≤ 2 ^ (d + f) → (PU.foldPolyNaive p r).length ≤ 2 ^ d
  fold_evaluate : ∀ p r ℓ,
    PU.evaluate (PU.foldPolyNaive p r) ℓ =
      (List.range (2 ^ ℓ)).map fun j =>
        PU.foldEval (((PU.evaluate p (ℓ + f)).drop (j * 2 ^ f)).take (2 ^ f)) r

/-- The folding strategy selected by the fold type (spec 9: injected
strategy on the folding kernel). -/
def foldFn {F : Type} (PU : PolyUtils F) : FoldType → List F → F → List F
  | FoldType.Naive => PU.foldPolyNaive
  | FoldType.ProverHelps => PU.foldPolyHelps

/-- Modelled from the spec: the witness produced by the committer - the
polynomial together with its committed evaluation oracle (spec 3, 4.2). -/
structure Witness (F : Type) where
  poly : List F
  oracle : List F

/-- Modelled from the spec: the prover's per-round state: the transcript,
the current polynomial and its oracle, and the proof entries built so
far (spec 4.3). -/
structure PState (F : Type) where
  t : List (List Nat)
  poly : List F
  oracle : List F
  entries : List (MultiPath × List (List F))

/-- Modelled from the spec: the domain-separation item both parties absorb
first: a protocol label plus the parameter encoding (spec 6).  The fold
type is deliberately absent: it is a prover-side strategy with no
protocol-semantic content (spec 9). -/
def dsep (cfg : StirConfig) : List Nat :=
  [17, cfg.logDegree, cfg.foldingFactor, cfg.securityLevel, cfg.powBits,
    cfg.startingLogInvRate,
    (match cfg.soundnessType with
      | SoundnessType.UniqueDecoding => 0
      | SoundnessType.ProvableList => 1
      | SoundnessType.ConjectureList => 2),
    cfg.numRounds]

/-- Modelled from the spec: CommitmentWriter.commit of the missing
committer module: evaluate the polynomial on the initial domain, commit to
the evaluations and absorb the commitment root after the domain separator
(spec 4.2).  The binding commitment root is the element-wise encoding of
the oracle. -/
def CommitmentWriter.commit {F : Type} [Encodable F] (PU : PolyUtils F)
    (cfg : StirConfig) (p0 : List F) : Witness F × List (List Nat) :=
  (⟨p0, PU.evaluate p0 (logDomain cfg 0)⟩,
    [dsep cfg, (PU.evaluate p0 (logDomain cfg 0)).map Encodable.encode])

/-- The round's folded polynomial: fold the current polynomial by the
challenge squeezed from the current transcript (spec 4.3). -/
def roundPoly {F : Type} [Field F] (PU : PolyUtils F) (cfg : StirConfig)
    (s : PState F) : List F :=
  foldFn PU cfg.foldOptimisation s.poly ((squeezeAt s.t 0 : Nat) : F)

/-- The round's new oracle: the folded polynomial evaluated on the shrunk
domain. -/
def roundOracle {F : Type} [Field F] (PU : PolyUtils F) (cfg : StirConfig)
    (i : Nat) (s : PState F) : List F :=
  PU.evaluate (roundPoly PU cfg s) (logDomain cfg (i + 1))

/-- The transcript after absorbing the round's new commitment root. -/
def roundT1 {F : Type} [Field F] [Encodable F] (PU : PolyUtils F)
    (cfg : StirConfig) (i : Nat) (s : PState F) : List (List Nat) :=
  s.t ++ [(roundOracle PU cfg i s).map Encodable.encode]

/-- The round's query indices, squeezed after the root absorption: coset
positions of the current domain. -/
def roundQueries {F : Type} [Field F] [Encodable F] (PU : PolyUtils F)
    (cfg : StirConfig) (i : Nat) (s : PState F) : List Nat :=
  (List.range (nQueries cfg i)).map fun m =>
    squeezeAt (roundT1 PU cfg i s) (m + 1) % 2 ^ logDomain cfg (i + 1)

/-- The opened leaf groups: the queried cosets of the current oracle. -/
def roundLeaves {F : Type} [Field F] [Encodable F] (PU : PolyUtils F)
    (cfg : StirConfig) (i : Nat) (s : PState F) : List (List F) :=
  (roundQueries PU cfg i s).map fun j =>
    (s.oracle.drop (j * 2 ^ cfg.foldingFactor)).take (2 ^ cfg.foldingFactor)

/-- Modelled from the spec: one prover round transition (spec 4.3): squeeze
the folding challenge, fold, evaluate on the shrunk domain, absorb the new
commitment root, squeeze the query indices, grind and absorb the
proof-of-work nonce, and open the current oracle at the queried cosets. -/
def proverRound {F : Type} [Field F] [Encodable F] (PU : PolyUtils F)
    (cfg : StirConfig) (i : Nat) (s : PState F) : PState F :=
  ⟨roundT1 PU cfg i s ++ [[grind (roundT1 PU cfg i s) cfg.powBits]],
    roundPoly PU cfg s, roundOracle PU cfg i s,
    s.entries ++ [(⟨roundQueries PU cfg i s⟩, roundLeaves PU cfg i s)]⟩

/-- Modelled from the spec: the prover's round loop, an explicit
finite-state iteration (spec 9); the round index is the number of entries
built so far. -/
def proverRounds {F : Type} [Field F] [Encodable F] (PU : PolyUtils F)
    (cfg : StirConfig) : Nat → PState F → PState F
  | 0, s => s
  | n + 1, s => proverRounds PU cfg n (proverRound PU cfg s.entries.length s)

/-- Modelled from the spec: Prover.prove of the missing prover module: run
the numRounds - 1 fold-commit-open transitions, then emit the final
polynomial's coefficients in the clear through the transcript (spec 4.3);
the proof object receives only the per-round openings. -/
def Prover.prove {F : Type} [Field F] [Encodable F] (PU : PolyUtils F)
    (cfg : StirConfig) (w : Witness F) (t : List (List Nat)) :
    StirProof F × List (List Nat) :=
  (⟨(proverRounds PU cfg (cfg.numRounds - 1) ⟨t, w.poly, w.oracle, []⟩).entries⟩,
    (proverRounds PU cfg (cfg.numRounds - 1) ⟨t, w.poly, w.oracle, []⟩).t ++
      [(proverRounds PU cfg (cfg.numRounds - 1) ⟨t, w.poly, w.oracle, []⟩).poly.map
        Encodable.encode])

/-- Modelled from the spec: the full pipeline of the integration test:
commit, then prove, returning the proof and the completed transcript. -/
def runStir {F : Type} [Field F] [Encodable F] (PU : PolyUtils F)
    (cfg : StirConfig) (p0 : List F) : StirProof F × List (List Nat) :=
  Prover.prove PU cfg (CommitmentWriter.commit PU cfg p0).1
    (CommitmentWriter.commit PU cfg p0).2

/-- Decoding a committed root back to the oracle it binds. -/
def decodeOracle (F : Type) [Encodable F] (root : List Nat) : Option (List F) :=
  root.mapM Encodable.decode

/-- Modelled from the spec: the Merkle collaborator's multi-path
verification: the opened leaf groups must be the queried cosets of the
oracle bound by the root (spec 6). -/
def verifyPath {F : Type} [DecidableEq F] [Encodable F] (k : Nat)
    (root : List Nat) (path : MultiPath) (claimed : List (List F)) : Bool :=
  match decodeOracle F root with
  | some L => decide (path.leafIndexes.map (fun j => (L.drop (j * k)).take k) = claimed)
  | none => false

/-- The transcript position of the round-i committed root: the initial root
follows the domain separator, and the root of round i + 1 is absorbed
during transition i. -/
def rootIdx (i : Nat) : Nat :=
  if i = 0 then 1 else 2 * i

/-- The round-i folding challenge the verifier re-derives from its own
transcript prefix (spec 4.4: it never trusts prover-supplied
challenges). -/
def challengeAt (F : Type) [Field F] (t : List (List Nat)) (i : Nat) : F :=
  (squeezeAt (t.take (2 + 2 * i)) 0 : Nat)

/-- The round-i query indices the verifier re-derives (coset positions in
the round-i domain, equivalently positions of the round-(i+1) domain). -/
def queriesAt (cfg : StirConfig) (t : List (List Nat)) (i : Nat) : List Nat :=
  (List.range (nQueries cfg i)).map fun m =>
    squeezeAt (t.take (3 + 2 * i)) (m + 1) % 2 ^ logDomain cfg (i + 1)

/-- The round-i proof-of-work nonce read back from the transcript. -/
def nonceOf (t : List (List Nat)) (i : Nat) : Nat :=
  (t.getD (2 * i + 3) []).headD 0

/-- Verifier check (1) for round i: the multi-path covers exactly the
re-derived query indices and authenticates against the round-i committed
root (spec 4.4). -/
def authOk {F : Type} [DecidableEq F] [Encodable F] (cfg : StirConfig)
    (t : List (List Nat)) (pf : StirProof F) (i : Nat) : Bool :=
  let e := entryAt pf i
  decide (e.1.leafIndexes = queriesAt cfg t i) &&
    verifyPath (2 ^ cfg.foldingFactor) (t.getD (rootIdx i) []) e.1 e.2

/-- Verifier check (2) for round i: the folding kernel applied to each
opened coset and the re-derived challenge must reproduce the round-(i+1)
committed evaluation at the implied position (spec 4.4). -/
def foldOk {F : Type} [Field F] [DecidableEq F] [Encodable F] (PU : PolyUtils F)
    (cfg : StirConfig) (t : List (List Nat)) (pf : StirProof F) (i : Nat) : Bool :=
  let e := entryAt pf i
  let r := challengeAt F t i
  let J := queriesAt cfg t i
  match decodeOracle F (t.getD (rootIdx (i + 1)) []) with
  | some L => decide (∀ m, m < nQueries cfg i →
      PU.foldEval (e.2.getD m []) r = L.getD (J.getD m 0) 0)
  | none => false

/-- Verifier check (4) for round i: the absorbed nonce satisfies the
round's proof-of-work difficulty (spec 4.4). -/
def powOk (cfg : StirConfig) (t : List (List Nat)) (i : Nat) : Bool :=
  checkPow (t.take (3 + 2 * i)) (nonceOf t i) cfg.powBits

/-- Verifier check (3): the disclosed final polynomial is within the
claimed degree bound, and its evaluations reproduce the folds of the last
round's openings (spec 4.3, 4.4). -/
def finalOk {F : Type} [Field F] [DecidableEq F] [Encodable F]
    (PU : PolyUtils F) (cfg : StirConfig) (t : List (List Nat))
    (pf : StirProof F) : Bool :=
  match (t.getD (2 * cfg.numRounds) []).mapM (Encodable.decode (α := F)) with
  | some q =>
      decide (q.length ≤ 2 ^ finalLogDegree cfg) &&
        (if cfg.numRounds = 1 then true
          else
            let i := cfg.numRounds - 2
            let e := entryAt pf i
            let r := challengeAt F t i
            let J := queriesAt cfg t i
            let ev := PU.evaluate q (logDomain cfg (cfg.numRounds - 1))
            decide (∀ m, m < nQueries cfg i →
              PU.foldEval (e.2.getD m []) r = ev.getD (J.getD m 0) 0))
  | none => false

/-- Modelled from the spec: Verifier.verify of the missing verifier module:
replay the transcript, re-derive every challenge and query index, and
accept exactly when the authentication, fold-consistency, final-degree and
proof-of-work checks all pass for every round (spec 4.4). -/
def Verifier.verify {F : Type} [Field F] [DecidableEq F] [Encodable F]
    (PU : PolyUtils F) (cfg : StirConfig) (t : List (List Nat))
    (pf : StirProof F) : Bool :=
  decide (t.length = 2 * cfg.numRounds + 1) &&
    decide (pf.merkleProofs.length = cfg.numRounds - 1) &&
    ((List.range (cfg.numRounds - 1)).all fun i =>
      authOk cfg t pf i && foldOk PU cfg t pf i && powOk cfg t i) &&
    finalOk PU cfg t pf

/-- Canonical serialization of a batch of leaf indexes: a length prefix
followed by the items (the external serializer for the multi-path,
modelled per spec 1, which scopes serialization out of the core). -/
def serNats (l : List Nat) : List Nat :=
  l.length :: l

/-- Canonical serialization of one opened coset of field elements. -/
def serFelts {F : Type} [Encodable F] (l : List F) : List Nat :=
  l.length :: l.map Encodable.encode

/-- Canonical serialization of the opened leaf groups of one round. -/
def serLeaves {F : Type} [Encodable F] (ll : List (List F)) : List Nat :=
  ll.length :: (ll.map serFelts).flatten

/-- Canonical serialization of one (multi-path, opened leaf groups)
entry. -/
def serEntry {F : Type} [Encodable F] (e : MultiPath × List (List F)) : List Nat :=
  serNats e.1.leafIndexes ++ serLeaves e.2

/-- The derived canonical serialization of a StirProof: the length-prefixed
sequence of its entries. -/
def serProof {F : Type} [Encodable F] (pf : StirProof F) : List Nat :=
  pf.merkleProofs.length :: (pf.merkleProofs.map serEntry).flatten

/-- Read a fixed number of raw tokens. -/
def readNats : Nat → List Nat → Option (List Nat × List Nat)
  | 0, s => some ([], s)
  | _ + 1, [] => none
  | n + 1, x :: s => (readNats n s).map fun q => (x :: q.1, q.2)

/-- Read a fixed number of field elements. -/
def readFeltsAux {F : Type} [Encodable F] :
    Nat → List Nat → Option (List F × List Nat)
  | 0, s => some ([], s)
  | _ + 1, [] => none
  | n + 1, x :: s =>
    match (Encodable.decode x : Option F) with
    | none => none
    | some a => (readFeltsAux n s).map fun q => (a :: q.1, q.2)

/-- Read one length-prefixed coset of field elements. -/
def readFelts {F : Type} [Encodable F] (s : List Nat) :
    Option (List F × List Nat) :=
  match s with
  | [] => none
  | n :: s1 => readFeltsAux n s1

/-- Read a fixed number of cosets. -/
def readLeavesAux {F : Type} [Encodable F] :
    Nat → List Nat → Option (List (List F) × List Nat)
  | 0, s => some ([], s)
  | n + 1, s =>
    (readFelts s).bind fun q =>
      (readLeavesAux n q.2).map fun w => (q.1 :: w.1, w.2)

/-- Read one proof entry. -/
def readEntry {F : Type} [Encodable F] (s : List Nat) :
    Option ((MultiPath × List (List F)) × List Nat) :=
  match s with
  | [] => none
  | n :: s1 =>
    (readNats n s1).bind fun q =>
      match q.2 with
      | [] => none
      | m :: s2 => (readLeavesAux m s2).map fun w => ((⟨q.1⟩, w.1), w.2)

/-- Read a fixed number of proof entries. -/
def readEntries {F : Type} [Encodable F] :
    Nat → List Nat → Option (List (MultiPath × List (List F)) × List Nat)
  | 0, s => some ([], s)
  | n + 1, s =>
    (readEntry s).bind fun q =>
      (readEntries n q.2).map fun w => (q.1 :: w.1, w.2)

/-- Deserialization of a StirProof from its canonical byte sequence; fails
unless the whole input is consumed. -/
def deserProof {F : Type} [Encodable F] (s : List Nat) : Option (StirProof F) :=
  match s with
  | [] => none
  | n :: s1 =>
    match (readEntries n s1 : Option (List (MultiPath × List (List F)) × List Nat)) with
    | some (l, []) => some ⟨l⟩
    | _ => none

/-- The compressed serialized size of a proof, as the external
CanonicalSerialize collaborator reports it. -/
def serializedSize {F : Type} [Encodable F] (pf : StirProof F) : Nat :=
  (serProof pf).length

/-- From the sources: stir_proof_size returns the transcript length plus
the compressed serialized size of the proof. -/
def stir_proof_size {F : Type} [Encodable F] (transcript : List Nat)
    (pf : StirProof F) : Nat :=
  transcript.length + serializedSize pf

/-- A concrete polynomial-utilities instance used to witness the abstract
collaborator contracts: every polynomial is evaluated by its coefficient
sum, so folding a coset is taking its head. -/
def constPU (F : Type) [Field F] : PolyUtils F where
  evaluate p ℓ := List.replicate (2 ^ ℓ) (p.foldr (· + ·) 0)
  foldPolyNaive p _ := [p.foldr (· + ·) 0]
  foldPolyHelps p _ := [p.foldr (· + ·) 0]
  foldEval v _ := v.headD 0

instance : Fact (Nat.Prime 101) := ⟨by norm_num⟩

instance : NeZero (101 : Nat) := ⟨by norm_num⟩

/-- The witness field: the prime field with 101 elements, with the
element-wise encoding given by the canonical representative. -/
instance zmodEncodable (p : Nat) [NeZero p] : Encodable (ZMod p) where
  encode a := a.val
  decode n := some ((n : Nat) : ZMod p)
  encodek a := congrArg some (ZMod.natCast_rightInverse a)

/-- A tiny valid configuration for concrete witnesses: degree bound 4,
folding factor 1, two rounds. -/
def cfg0 : StirConfig where
  logDegree := 2
  foldingFactor := 1
  securityLevel := 1
  powBits := 0
  startingLogInvRate := 1
  soundnessType := SoundnessType.UniqueDecoding
  foldOptimisation := FoldType.Naive
  numRounds := 2

/-- The first scenario configuration of the integration test: degree bound
two to the 16, folding factor 4, regime ProvableList, proof-of-work bits 5,
security level 32, starting log inverse rate 1. -/
def cfgScenario1 : StirConfig where
  logDegree := 16
  foldingFactor := 4
  securityLevel := 32
  powBits := 5
  startingLogInvRate := 1
  soundnessType := SoundnessType.ProvableList
  foldOptimisation := FoldType.Naive
  numRounds := 4

/-- The second scenario configuration: folding factor 5, regime
UniqueDecoding, proof-of-work bits 0. -/
def cfgScenario2 : StirConfig where
  logDegree := 16
  foldingFactor := 5
  securityLevel := 32
  powBits := 0
  startingLogInvRate := 1
  soundnessType := SoundnessType.UniqueDecoding
  foldOptimisation := FoldType.Naive
  numRounds := 3

/-- The all-ones constant-coefficient polynomial of the integration test,
with two to the 16 coefficients. -/
def onesPoly : List (ZMod 101) :=
  List.replicate (2 ^ 16) 1

/-- The prover-loop invariant: after i transitions the entry and transcript
lengths are determined, the oracle is the evaluation of the current
polynomial, the degree bound has been divided i times, the latest absorbed
root binds the current oracle, every verifier check of a finished round
already holds on the current transcript, and every finished entry opens
query-count-times-coset-size leaves. -/
structure Inv {F : Type} [Field F] [DecidableEq F] [Encodable F]
    (PU : PolyUtils F) (cfg : StirConfig) (i : Nat) (s : PState F) : Prop where
  entriesLen : s.entries.length = i
  tLen : s.t.length = 2 + 2 * i
  oracleEq : s.oracle = PU.evaluate s.poly (logDomain cfg i)
  polyLen : s.poly.length ≤ 2 ^ (cfg.logDegree - cfg.foldingFactor * i)
  rootEq : s.t.getD (rootIdx i) [] = s.oracle.map Encodable.encode
  checksOk : ∀ b, b < i →
    authOk cfg s.t (⟨s.entries⟩ : StirProof F) b = true ∧
      foldOk PU cfg s.t (⟨s.entries⟩ : StirProof F) b = true ∧
      powOk cfg s.t b = true
  leafCount : ∀ b, b < i →
    ((entryAt (⟨s.entries⟩ : StirProof F) b).2.map List.length).sum =
      nQueries cfg b * 2 ^ cfg.foldingFactor

lemma take_append_le {α : Type} (l u : List α) {n : Nat} (h : n ≤ l.length) :
    (l ++ u).take n = l.take n := by
  rw [List.take_append_eq_append_take, Nat.sub_eq_zero_of_le h, List.take_zero,
    List.append_nil]

lemma getD_concat {α : Type} (l : List α) (lr : List α) (d : α) :
    (l ++ lr).getD l.length d = lr.headD d := by
  cases lr with
  | nil => simp [List.getD_eq_getElem?_getD]
  | cons a tl =>
    rw [List.getD_eq_getElem?_getD, List.getElem?_append_right (Nat.le_refl _)]
    simp

lemma decodeOracle_map_encode {F : Type} [Encodable F] (l : List F) :
    decodeOracle F (l.map Encodable.encode) = some l := by
  induction l with
  | nil => rfl
  | cons a tl ih =>
    simp only [decodeOracle, List.map_cons, List.mapM_cons] at ih ⊢
    rw [Encodable.encodek]
    simp only [Option.bind_eq_bind, Option.some_bind] at ih ⊢
    rw [ih]
    rfl

lemma add_sub_mod_self (a m : Nat) (hm : 0 < m) :
    (a + (m - a % m) % m) % m = 0 := by
  rcases Nat.eq_zero_or_pos (a % m) with h0 | h0
  · rw [h0, Nat.sub_zero, Nat.mod_self, Nat.add_zero, h0]
  · have h1 : a % m < m := Nat.mod_lt _ hm
    have h2 : (m - a % m) % m = m - a % m := Nat.mod_eq_of_lt (by omega)
    rw [h2, Nat.add_mod, h2]
    have h3 : a % m + (m - a % m) = m := by omega
    rw [h3, Nat.mod_self]

lemma checkPow_grind (t : List (List Nat)) (bits : Nat) :
    checkPow t (grind t bits) bits = true := by
  have hp : 0 < 2 ^ bits := pow_pos (by omega) bits
  unfold checkPow grind
  rw [beq_iff_eq]
  exact add_sub_mod_self (thash t) (2 ^ bits) hp

lemma sum_map_length_const {α : Type} {k : Nat} (g : Nat → List α)
    (J : List Nat) (h : ∀ j ∈ J, (g j).length = k) :
    ((J.map g).map List.length).sum = J.length * k := by
  induction J with
  | nil => simp
  | cons a tl ih =>
    simp only [List.map_cons, List.sum_cons, List.length_cons]
    rw [h a (by simp), ih fun j hj => h j (by simp [hj])]
    ring

lemma headD_replicate {α : Type} {n : Nat} (a d : α) (h : 0 < n) :
    (List.replicate n a).headD d = a := by
  cases n with
  | zero => omega
  | succ m => simp [List.replicate_succ]

/-- The concrete polynomial-utilities instance satisfies every collaborator
contract the protocol relies on. -/
lemma constPU_lawful (F : Type) [Field F] (f : Nat) : (constPU F).Lawful f := by
  constructor
  · intro p ℓ
    simp [constPU]
  · intro p r
    rfl
  · intro p r d _
    simpa [constPU] using Nat.one_le_two_pow
  · intro p r ℓ
    apply List.ext_getElem
    · simp [constPU]
    · intro j h1 h2
      have hj : j < 2 ^ ℓ := by simpa [constPU] using h1
      have hpos : 0 < 2 ^ ℓ * 2 ^ f - j * 2 ^ f := by
        have := (Nat.mul_lt_mul_right (pow_pos (by omega : 0 < 2) f)).mpr hj
        omega
      simp only [constPU, List.getElem_map, List.getElem_range,
        List.getElem_replicate, List.drop_replicate, List.take_replicate,
        pow_add]
      rw [headD_replicate]
      · simp
      · have hf : 0 < 2 ^ f := pow_pos (by omega) f
        simp only [lt_min_iff]
        exact ⟨hf, hpos⟩

lemma rootIdx_lt {b n : Nat} (h : 2 * b + 2 ≤ n) : rootIdx b < n := by
  unfold rootIdx
  split <;> omega

lemma queriesAt_append (cfg : StirConfig) (t u : List (List Nat)) {b : Nat}
    (h : 3 + 2 * b ≤ t.length) :
    queriesAt cfg (t ++ u) b = queriesAt cfg t b := by
  unfold queriesAt
  rw [take_append_le _ _ h]

lemma challengeAt_append (F : Type) [Field F] (t u : List (List Nat)) {b : Nat}
    (h : 2 + 2 * b ≤ t.length) :
    challengeAt F (t ++ u) b = challengeAt F t b := by
  unfold challengeAt
  rw [take_append_le _ _ h]

lemma entryAt_append {F : Type} (es e : List (MultiPath × List (List F)))
    {b : Nat} (h : b < es.length) :
    entryAt (⟨es ++ e⟩ : StirProof F) b = entryAt (⟨es⟩ : StirProof F) b := by
  unfold entryAt
  exact List.getD_append _ _ _ _ h

lemma authOk_append {F : Type} [Field F] [DecidableEq F] [Encodable F]
    (cfg : StirConfig) (t u : List (List Nat))
    (es e : List (MultiPath × List (List F))) {b : Nat}
    (ht : 2 * b + 4 ≤ t.length) (he : b < es.length) :
    authOk cfg (t ++ u) (⟨es ++ e⟩ : StirProof F) b =
      authOk cfg t (⟨es⟩ : StirProof F) b := by
  unfold authOk
  rw [entryAt_append es e he, queriesAt_append cfg t u (by omega),
    List.getD_append _ _ _ _ (rootIdx_lt (by omega))]

lemma foldOk_append {F : Type} [Field F] [DecidableEq F] [Encodable F]
    (PU : PolyUtils F) (cfg : StirConfig) (t u : List (List Nat))
    (es e : List (MultiPath × List (List F))) {b : Nat}
    (ht : 2 * b + 4 ≤ t.length) (he : b < es.length) :
    foldOk PU cfg (t ++ u) (⟨es ++ e⟩ : StirProof F) b =
      foldOk PU cfg t (⟨es⟩ : StirProof F) b := by
  unfold foldOk
  rw [entryAt_append es e he, queriesAt_append cfg t u (by omega),
    challengeAt_append F t u (by omega),
    List.getD_append _ _ _ _ (rootIdx_lt (b := b + 1) (by omega))]

lemma powOk_append (cfg : StirConfig) (t u : List (List Nat)) {b : Nat}
    (ht : 2 * b + 4 ≤ t.length) :
    powOk cfg (t ++ u) b = powOk cfg t b := by
  unfold powOk nonceOf
  rw [take_append_le _ _ (by omega), List.getD_append _ _ _ _ (by omega)]

lemma valid_mul_le {cfg : StirConfig} (hv : cfg.Valid) :
    cfg.foldingFactor * cfg.numRounds ≤ cfg.logDegree := by
  obtain ⟨-, -, hR, -⟩ := hv
  rw [hR, Nat.mul_comm]
  exact Nat.div_mul_le_self _ _

lemma logDomain_succ {cfg : StirConfig} (hv : cfg.Valid) {i : Nat}
    (hi : i + 1 ≤ cfg.numRounds) :
    logDomain cfg i = logDomain cfg (i + 1) + cfg.foldingFactor := by
  have h1 := valid_mul_le hv
  have h2 : cfg.foldingFactor * (i + 1) ≤ cfg.foldingFactor * cfg.numRounds :=
    Nat.mul_le_mul_left _ hi
  have h3 : cfg.foldingFactor * (i + 1) = cfg.foldingFactor * i + cfg.foldingFactor :=
    Nat.mul_succ _ _
  unfold logDomain
  omega

lemma degreeBound_succ {cfg : StirConfig} (hv : cfg.Valid) {i : Nat}
    (hi : i + 1 ≤ cfg.numRounds) :
    cfg.logDegree - cfg.foldingFactor * i =
      (cfg.logDegree - cfg.foldingFactor * (i + 1)) + cfg.foldingFactor := by
  have h1 := valid_mul_le hv
  have h2 : cfg.foldingFactor * (i + 1) ≤ cfg.foldingFactor * cfg.numRounds :=
    Nat.mul_le_mul_left _ hi
  have h3 : cfg.foldingFactor * (i + 1) = cfg.foldingFactor * i + cfg.foldingFactor :=
    Nat.mul_succ _ _
  omega

lemma roundQueries_length {F : Type} [Field F] [Encodable F]
    (PU : PolyUtils F) (cfg : StirConfig) (i : Nat) (s : PState F) :
    (roundQueries PU cfg i s).length = nQueries cfg i := by
  simp [roundQueries]

lemma roundQueries_getD_lt {F : Type} [Field F] [Encodable F]
    (PU : PolyUtils F) (cfg : StirConfig) (i : Nat) (s : PState F) {m : Nat}
    (hm : m < nQueries cfg i) :
    (roundQueries PU cfg i s).getD m 0 < 2 ^ logDomain cfg (i + 1) := by
  unfold roundQueries
  rw [List.getD_eq_getElem _ _ (by simpa using hm), List.getElem_map,
    List.getElem_range]
  exact Nat.mod_lt _ (pow_pos (by omega) _)

lemma roundQueries_mem_lt {F : Type} [Field F] [Encodable F]
    (PU : PolyUtils F) (cfg : StirConfig) (i : Nat) (s : PState F) {j : Nat}
    (hj : j ∈ roundQueries PU cfg i s) : j < 2 ^ logDomain cfg (i + 1) := by
  unfold roundQueries at hj
  rw [List.mem_map] at hj
  obtain ⟨m, -, rfl⟩ := hj
  exact Nat.mod_lt _ (pow_pos (by omega) _)

lemma roundLeaves_getD {F : Type} [Field F] [Encodable F]
    (PU : PolyUtils F) (cfg : StirConfig) (i : Nat) (s : PState F) {m : Nat}
    (hm : m < nQueries cfg i) :
    (roundLeaves PU cfg i s).getD m [] =
      (s.oracle.drop ((roundQueries PU cfg i s).getD m 0 * 2 ^ cfg.foldingFactor)).take
        (2 ^ cfg.foldingFactor) := by
  unfold roundLeaves
  rw [List.getD_eq_getElem _ _ (by rw [List.length_map, roundQueries_length]; exact hm),
    List.getElem_map,
    List.getD_eq_getElem _ _ (by rw [roundQueries_length]; exact hm)]

lemma getD_map_range {α : Type} (f : Nat → α) (n j : Nat) (d : α) (h : j < n) :
    ((List.range n).map f).getD j d = f j := by
  rw [List.getD_eq_getElem _ _ (by simpa using h), List.getElem_map, List.getElem_range]

lemma inv_step {F : Type} [Field F] [DecidableEq F] [Encodable F]
    {PU : PolyUtils F} {cfg : StirConfig} (L : PU.Lawful cfg.foldingFactor)
    (hv : cfg.Valid) {i : Nat} {s : PState F} (hi : i + 1 ≤ cfg.numRounds)
    (h : Inv PU cfg i s) : Inv PU cfg (i + 1) (proverRound PU cfg i s) := by
  obtain ⟨hel, htl, hor, hpl, hrt, hck, hlc⟩ := h
  have hT1len : (roundT1 PU cfg i s).length = 3 + 2 * i := by
    unfold roundT1
    rw [List.length_append, htl]
    simp only [List.length_cons, List.length_nil]
    omega
  have hassoc : roundT1 PU cfg i s ++ [[grind (roundT1 PU cfg i s) cfg.powBits]] =
      s.t ++ ([(roundOracle PU cfg i s).map Encodable.encode] ++
        [[grind (roundT1 PU cfg i s) cfg.powBits]]) := by
    unfold roundT1
    rw [List.append_assoc]
  have htake2 : (roundT1 PU cfg i s ++
      [[grind (roundT1 PU cfg i s) cfg.powBits]]).take (2 + 2 * i) = s.t := by
    rw [hassoc, take_append_le _ _ (by omega), ← htl, List.take_length]
  have htake3 : (roundT1 PU cfg i s ++
      [[grind (roundT1 PU cfg i s) cfg.powBits]]).take (3 + 2 * i) =
      roundT1 PU cfg i s := by
    rw [take_append_le _ _ (by omega), ← hT1len, List.take_length]
  have hrootNew : (roundT1 PU cfg i s ++
      [[grind (roundT1 PU cfg i s) cfg.powBits]]).getD (rootIdx (i + 1)) [] =
      (roundOracle PU cfg i s).map Encodable.encode := by
    have hri : rootIdx (i + 1) = 2 * i + 2 := by
      unfold rootIdx
      split <;> omega
    rw [hri, List.getD_append _ _ _ _ (by omega)]
    unfold roundT1
    rw [show 2 * i + 2 = s.t.length by omega, getD_concat]
    rfl
  have hchal : challengeAt F (roundT1 PU cfg i s ++
      [[grind (roundT1 PU cfg i s) cfg.powBits]]) i = ((squeezeAt s.t 0 : Nat) : F) := by
    unfold challengeAt
    rw [htake2]
  have hquer : queriesAt cfg (roundT1 PU cfg i s ++
      [[grind (roundT1 PU cfg i s) cfg.powBits]]) i = roundQueries PU cfg i s := by
    unfold queriesAt roundQueries
    rw [htake3]
  have hentNew : entryAt (⟨s.entries ++ [(⟨roundQueries PU cfg i s⟩, roundLeaves PU cfg i s)]⟩ :
      StirProof F) i = (⟨roundQueries PU cfg i s⟩, roundLeaves PU cfg i s) := by
    unfold entryAt
    rw [show i = s.entries.length from hel.symm, getD_concat]
    rfl
  have horaNew : roundOracle PU cfg i s =
      (List.range (2 ^ logDomain cfg (i + 1))).map fun j =>
        PU.foldEval ((s.oracle.drop (j * 2 ^ cfg.foldingFactor)).take
          (2 ^ cfg.foldingFactor)) ((squeezeAt s.t 0 : Nat) : F) := by
    unfold roundOracle roundPoly
    have hfold : foldFn PU cfg.foldOptimisation s.poly ((squeezeAt s.t 0 : Nat) : F) =
        PU.foldPolyNaive s.poly ((squeezeAt s.t 0 : Nat) : F) := by
      cases hcase : cfg.foldOptimisation
      · rfl
      · exact L.helps_eq_naive _ _
    rw [hfold, L.fold_evaluate, ← logDomain_succ hv hi, ← hor]
  constructor
  · simp [proverRound, hel]
  · simp only [proverRound]
    rw [List.length_append, hT1len]
    simp only [List.length_cons, List.length_nil]
    omega
  · rfl
  · show (roundPoly PU cfg s).length ≤ _
    unfold roundPoly
    have hfold : foldFn PU cfg.foldOptimisation s.poly ((squeezeAt s.t 0 : Nat) : F) =
        PU.foldPolyNaive s.poly ((squeezeAt s.t 0 : Nat) : F) := by
      cases hcase : cfg.foldOptimisation
      · rfl
      · exact L.helps_eq_naive _ _
    rw [hfold]
    refine L.fold_degree _ _ _ ?_
    rw [← degreeBound_succ hv hi]
    exact hpl
  · exact hrootNew
  · intro b hb
    simp only [proverRound]
    rcases Nat.lt_succ_iff_lt_or_eq.mp hb with hb' | hb'
    · have ht4 : 2 * b + 4 ≤ s.t.length := by omega
      have he' : b < s.entries.length := by omega
      rw [hassoc, authOk_append cfg s.t _ _ _ ht4 he',
        foldOk_append PU cfg s.t _ _ _ ht4 he', powOk_append cfg s.t _ ht4]
      exact hck b hb'
    · subst hb'
      refine ⟨?_, ?_, ?_⟩
      · simp only [authOk]
        rw [hentNew, hquer]
        rw [Bool.and_eq_true]
        refine ⟨by simp, ?_⟩
        have hroot : (roundT1 PU cfg b s ++
            [[grind (roundT1 PU cfg b s) cfg.powBits]]).getD (rootIdx b) [] =
            s.oracle.map Encodable.encode := by
          rw [hassoc, List.getD_append _ _ _ _ (rootIdx_lt (by omega))]
          exact hrt
        rw [hroot]
        unfold verifyPath
        rw [decodeOracle_map_encode]
        show decide _ = true
        rw [decide_eq_true_eq]
        rfl
      · simp only [foldOk]
        rw [hentNew, hquer, hchal, hrootNew, decodeOracle_map_encode]
        show decide _ = true
        rw [decide_eq_true_eq]
        intro m hm
        show PU.foldEval ((roundLeaves PU cfg b s).getD m []) _ = _
        rw [roundLeaves_getD PU cfg b s hm, horaNew,
          getD_map_range _ _ _ _ (roundQueries_getD_lt PU cfg b s hm)]
      · simp only [powOk, nonceOf]
        rw [htake3, show 2 * b + 3 = (roundT1 PU cfg b s).length by omega, getD_concat]
        exact checkPow_grind _ _
  · intro b hb
    simp only [proverRound]
    rcases Nat.lt_succ_iff_lt_or_eq.mp hb with hb' | hb'
    · have he' : b < s.entries.length := by omega
      rw [entryAt_append _ _ he']
      exact hlc b hb'
    · subst hb'
      rw [hentNew]
      show ((roundLeaves PU cfg b s).map List.length).sum = _
      unfold roundLeaves
      rw [sum_map_length_const _ _ ?_, roundQueries_length]
      intro j hj
      have hjlt : j < 2 ^ logDomain cfg (b + 1) := roundQueries_mem_lt PU cfg b s hj
      rw [List.length_take, List.length_drop]
      have holen : s.oracle.length = 2 ^ logDomain cfg b := by
        rw [hor, L.eval_length]
      have hsplit : 2 ^ logDomain cfg b =
          2 ^ logDomain cfg (b + 1) * 2 ^ cfg.foldingFactor := by
        rw [logDomain_succ hv hi, pow_add]
      have hmul : (j + 1) * 2 ^ cfg.foldingFactor ≤
          2 ^ logDomain cfg (b + 1) * 2 ^ cfg.foldingFactor :=
        Nat.mul_le_mul_right _ (by omega)
      rw [Nat.succ_mul] at hmul
      omega

lemma inv_commit {F : Type} [Field F] [DecidableEq F] [Encodable F]
    (PU : PolyUtils F) (cfg : StirConfig) {p0 : List F}
    (hp : p0.length ≤ 2 ^ cfg.logDegree) :
    Inv PU cfg 0 ⟨[dsep cfg, (PU.evaluate p0 (logDomain cfg 0)).map Encodable.encode],
      p0, PU.evaluate p0 (logDomain cfg 0), []⟩ := by
  constructor
  · rfl
  · rfl
  · rfl
  · simpa using hp
  · rfl
  · intro b hb
    omega
  · intro b hb
    omega

lemma inv_iterate {F : Type} [Field F] [DecidableEq F] [Encodable F]
    {PU : PolyUtils F} {cfg : StirConfig} (L : PU.Lawful cfg.foldingFactor)
    (hv : cfg.Valid) (n : Nat) :
    ∀ {i : Nat} {s : PState F}, Inv PU cfg i s → i + n ≤ cfg.numRounds →
      Inv PU cfg (i + n) (proverRounds PU cfg n s) := by
  induction n with
  | zero =>
    intro i s h _
    simpa using h
  | succ n ih =>
    intro i s h hle
    show Inv PU cfg (i + (n + 1)) (proverRounds PU cfg n (proverRound PU cfg s.entries.length s))
    rw [h.entriesLen]
    have hstep := inv_step L hv (by omega) h
    have := ih hstep (by omega)
    rwa [show i + 1 + n = i + (n + 1) by omega] at this

/-- The core completeness argument: an honest run of commit and prove,
under any lawful polynomial-utilities collaborator and any valid
configuration, produces a transcript and proof the verifier accepts. -/
lemma stir_complete_core {F : Type} [Field F] [DecidableEq F] [Encodable F]
    (PU : PolyUtils F) (cfg : StirConfig) (L : PU.Lawful cfg.foldingFactor)
    (hv : cfg.Valid) (p0 : List F) (hp : p0.length ≤ 2 ^ cfg.logDegree) :
    Verifier.verify PU cfg (runStir PU cfg p0).2 (runStir PU cfg p0).1 = true := by
  have hR1 : 1 ≤ cfg.numRounds := hv.2.2.2
  have hinv : Inv PU cfg (cfg.numRounds - 1)
      (proverRounds PU cfg (cfg.numRounds - 1)
        ⟨[dsep cfg, (PU.evaluate p0 (logDomain cfg 0)).map Encodable.encode],
          p0, PU.evaluate p0 (logDomain cfg 0), []⟩) := by
    have h0 := inv_commit PU cfg hp
    have := inv_iterate L hv (cfg.numRounds - 1) h0 (by omega)
    simpa using this
  show Verifier.verify PU cfg
      ((proverRounds PU cfg (cfg.numRounds - 1)
          ⟨[dsep cfg, (PU.evaluate p0 (logDomain cfg 0)).map Encodable.encode],
            p0, PU.evaluate p0 (logDomain cfg 0), []⟩).t ++
        [(proverRounds PU cfg (cfg.numRounds - 1)
          ⟨[dsep cfg, (PU.evaluate p0 (logDomain cfg 0)).map Encodable.encode],
            p0, PU.evaluate p0 (logDomain cfg 0), []⟩).poly.map Encodable.encode])
      ⟨(proverRounds PU cfg (cfg.numRounds - 1)
          ⟨[dsep cfg, (PU.evaluate p0 (logDomain cfg 0)).map Encodable.encode],
            p0, PU.evaluate p0 (logDomain cfg 0), []⟩).entries⟩ = true
  set s := proverRounds PU cfg (cfg.numRounds - 1)
    ⟨[dsep cfg, (PU.evaluate p0 (logDomain cfg 0)).map Encodable.encode],
      p0, PU.evaluate p0 (logDomain cfg 0), []⟩ with hs
  obtain ⟨hel, htl, hor, hpl, hrt, hck, hlc⟩ := hinv
  unfold Verifier.verify
  rw [Bool.and_eq_true, Bool.and_eq_true, Bool.and_eq_true]
  refine ⟨⟨⟨?_, ?_⟩, ?_⟩, ?_⟩
  · rw [decide_eq_true_eq, List.length_append, htl]
    simp only [List.length_cons, List.length_nil]
    omega
  · show decide (s.entries.length = cfg.numRounds - 1) = true
    rw [decide_eq_true_eq]
    exact hel
  · rw [List.all_eq_true]
    intro b hbmem
    rw [List.mem_range] at hbmem
    have ht4 : 2 * b + 4 ≤ s.t.length := by omega
    have he' : b < s.entries.length := by omega
    have hA := authOk_append cfg s.t [s.poly.map Encodable.encode] s.entries [] ht4 he'
    have hF := foldOk_append PU cfg s.t [s.poly.map Encodable.encode] s.entries [] ht4 he'
    have hP := powOk_append cfg s.t [s.poly.map Encodable.encode] ht4
    rw [List.append_nil] at hA hF
    rw [hA, hF, hP, Bool.and_eq_true, Bool.and_eq_true]
    obtain ⟨h1, h2, h3⟩ := hck b hbmem
    exact ⟨⟨h1, h2⟩, h3⟩
  · unfold finalOk
    have hcoef : (s.t ++ [s.poly.map Encodable.encode]).getD (2 * cfg.numRounds) [] =
        s.poly.map Encodable.encode := by
      rw [show 2 * cfg.numRounds = s.t.length by omega, getD_concat]
      rfl
    rw [hcoef,
      show (List.mapM Encodable.decode (s.poly.map Encodable.encode) : Option (List F)) =
        some s.poly from decodeOracle_map_encode s.poly]
    show (decide (s.poly.length ≤ 2 ^ finalLogDegree cfg) && _) = true
    rw [Bool.and_eq_true]
    constructor
    · rw [decide_eq_true_eq]
      exact hpl
    · by_cases hRone : cfg.numRounds = 1
      · rw [if_pos hRone]
      · rw [if_neg hRone]
        have hR2 : 2 ≤ cfg.numRounds := by omega
        have hCh := challengeAt_append F s.t [s.poly.map Encodable.encode]
          (b := cfg.numRounds - 2) (by omega)
        have hQu := queriesAt_append cfg s.t [s.poly.map Encodable.encode]
          (b := cfg.numRounds - 2) (by omega)
        show decide _ = true
        rw [hCh, hQu, ← hor]
        obtain ⟨-, hfold, -⟩ := hck (cfg.numRounds - 2) (by omega)
        simp only [foldOk] at hfold
        rw [show cfg.numRounds - 2 + 1 = cfg.numRounds - 1 from by omega, hrt,
          decodeOracle_map_encode] at hfold
        exact hfold

/-- The shape of an honest proof: entry count and per-entry leaf counts. -/
lemma stir_shape_core {F : Type} [Field F] [DecidableEq F] [Encodable F]
    (PU : PolyUtils F) (cfg : StirConfig) (L : PU.Lawful cfg.foldingFactor)
    (hv : cfg.Valid) (p0 : List F) (hp : p0.length ≤ 2 ^ cfg.logDegree) :
    (runStir PU cfg p0).1.merkleProofs.length = cfg.numRounds - 1 ∧
      ∀ b, b < cfg.numRounds - 1 →
        ((entryAt (runStir PU cfg p0).1 b).2.map List.length).sum =
          nQueries cfg b * 2 ^ cfg.foldingFactor := by
  have hinv : Inv PU cfg (cfg.numRounds - 1)
      (proverRounds PU cfg (cfg.numRounds - 1)
        ⟨[dsep cfg, (PU.evaluate p0 (logDomain cfg 0)).map Encodable.encode],
          p0, PU.evaluate p0 (logDomain cfg 0), []⟩) := by
    have h0 := inv_commit PU cfg hp
    have := inv_iterate L hv (cfg.numRounds - 1) h0 (by omega)
    simpa using this
  exact ⟨hinv.entriesLen, hinv.leafCount⟩

lemma roundPoly_foldtype {F : Type} [Field F] {PU : PolyUtils F}
    {cfg : StirConfig} (L : PU.Lawful cfg.foldingFactor) (s : PState F) :
    roundPoly PU { cfg with foldOptimisation := FoldType.Naive } s =
      roundPoly PU { cfg with foldOptimisation := FoldType.ProverHelps } s := by
  unfold roundPoly foldFn
  exact (L.helps_eq_naive _ _).symm

lemma proverRound_foldtype {F : Type} [Field F] [Encodable F] {PU : PolyUtils F}
    {cfg : StirConfig} (L : PU.Lawful cfg.foldingFactor) (i : Nat) (s : PState F) :
    proverRound PU { cfg with foldOptimisation := FoldType.Naive } i s =
      proverRound PU { cfg with foldOptimisation := FoldType.ProverHelps } i s := by
  have hp := roundPoly_foldtype L s
  have ho : roundOracle PU { cfg with foldOptimisation := FoldType.Naive } i s =
      roundOracle PU { cfg with foldOptimisation := FoldType.ProverHelps } i s := by
    unfold roundOracle
    rw [hp]
    rfl
  have ht : roundT1 PU { cfg with foldOptimisation := FoldType.Naive } i s =
      roundT1 PU { cfg with foldOptimisation := FoldType.ProverHelps } i s := by
    unfold roundT1
    rw [ho]
  have hq : roundQueries PU { cfg with foldOptimisation := FoldType.Naive } i s =
      roundQueries PU { cfg with foldOptimisation := FoldType.ProverHelps } i s := by
    unfold roundQueries
    rw [ht]
    rfl
  have hl : roundLeaves PU { cfg with foldOptimisation := FoldType.Naive } i s =
      roundLeaves PU { cfg with foldOptimisation := FoldType.ProverHelps } i s := by
    unfold roundLeaves
    rw [hq]
  unfold proverRound
  rw [hp, ho, ht, hq, hl]

lemma proverRounds_foldtype {F : Type} [Field F] [Encodable F] {PU : PolyUtils F}
    {cfg : StirConfig} (L : PU.Lawful cfg.foldingFactor) (n : Nat) :
    ∀ s : PState F,
      proverRounds PU { cfg with foldOptimisation := FoldType.Naive } n s =
        proverRounds PU { cfg with foldOptimisation := FoldType.ProverHelps } n s := by
  induction n with
  | zero => intro s; rfl
  | succ n ih =>
    intro s
    show proverRounds PU { cfg with foldOptimisation := FoldType.Naive } n
        (proverRound PU { cfg with foldOptimisation := FoldType.Naive } s.entries.length s) = _
    rw [proverRound_foldtype L, ih]
    rfl

lemma runStir_foldtype {F : Type} [Field F] [DecidableEq F] [Encodable F]
    {PU : PolyUtils F} {cfg : StirConfig} (L : PU.Lawful cfg.foldingFactor)
    (p0 : List F) :
    runStir PU { cfg with foldOptimisation := FoldType.Naive } p0 =
      runStir PU { cfg with foldOptimisation := FoldType.ProverHelps } p0 := by
  unfold runStir Prover.prove CommitmentWriter.commit
  rw [proverRounds_foldtype L]
  rfl

lemma readNats_append (l rest : List Nat) :
    readNats l.length (l ++ rest) = some (l, rest) := by
  induction l with
  | nil => rfl
  | cons a tl ih => simp [readNats, ih]

lemma readFeltsAux_append {F : Type} [Encodable F] (l : List F) (rest : List Nat) :
    readFeltsAux l.length (l.map Encodable.encode ++ rest) = some (l, rest) := by
  induction l with
  | nil => rfl
  | cons a tl ih => simp [readFeltsAux, Encodable.encodek, ih]

lemma readFelts_serFelts {F : Type} [Encodable F] (l : List F) (rest : List Nat) :
    readFelts (serFelts l ++ rest) = some (l, rest) := by
  show readFelts (l.length :: (l.map Encodable.encode ++ rest)) = some (l, rest)
  exact readFeltsAux_append l rest

lemma readLeavesAux_append {F : Type} [Encodable F] (ll : List (List F))
    (rest : List Nat) :
    readLeavesAux ll.length ((ll.map serFelts).flatten ++ rest) = some (ll, rest) := by
  induction ll with
  | nil => rfl
  | cons a tl ih =>
    show readLeavesAux (tl.length + 1)
        ((serFelts a ++ (tl.map serFelts).flatten) ++ rest) = _
    rw [List.append_assoc]
    simp [readLeavesAux, readFelts_serFelts, ih]

lemma readEntry_serEntry {F : Type} [Encodable F]
    (e : MultiPath × List (List F)) (rest : List Nat) :
    readEntry (serEntry e ++ rest) = some (e, rest) := by
  obtain ⟨⟨J⟩, ll⟩ := e
  show readEntry (J.length ::
      ((J ++ (ll.length :: (ll.map serFelts).flatten)) ++ rest)) = _
  rw [List.append_assoc]
  show (readNats J.length
      (J ++ ((ll.length :: (ll.map serFelts).flatten) ++ rest))).bind _ = _
  rw [readNats_append]
  show (readLeavesAux ll.length ((ll.map serFelts).flatten ++ rest)).map _ = _
  rw [readLeavesAux_append]
  rfl

lemma readEntries_append {F : Type} [Encodable F]
    (l : List (MultiPath × List (List F))) (rest : List Nat) :
    readEntries l.length ((l.map serEntry).flatten ++ rest) = some (l, rest) := by
  induction l with
  | nil => rfl
  | cons a tl ih =>
    show readEntries (tl.length + 1) ((serEntry a ++ (tl.map serEntry).flatten) ++ rest) = _
    rw [List.append_assoc]
    simp [readEntries, readEntry_serEntry, ih]

/-- C1: Completeness: for every valid (polynomial, parameter set) pair in
which the polynomial's degree is within the claimed degree bound, running
CommitmentWriter.commit, then Prover.prove, then Verifier.verify on the
resulting proof and transcript yields acceptance, for every soundness
regime, fold type, and folding factor the parameter set accepts (these are
fields of the universally quantified valid configuration), and for every
lawful polynomial-utilities collaborator. -/
theorem C1_completeness {F : Type} [Field F] [DecidableEq F] [Encodable F]
    (PU : PolyUtils F) (cfg : StirConfig) (L : PU.Lawful cfg.foldingFactor)
    (hv : cfg.Valid) (p0 : List F) (hp : p0.length ≤ 2 ^ cfg.logDegree) :
    Verifier.verify PU cfg (runStir PU cfg p0).2 (runStir PU cfg p0).1 = true :=
  stir_complete_core PU cfg L hv p0 hp

/-- Witness for C1 at the concrete two-round configuration over the prime
field with 101 elements and the polynomial with coefficients (1, 1). -/
theorem C1_completeness_witness :
    Verifier.verify (constPU (ZMod 101)) cfg0
      (runStir (constPU (ZMod 101)) cfg0 [1, 1]).2
      (runStir (constPU (ZMod 101)) cfg0 [1, 1]).1 = true :=
  C1_completeness (constPU (ZMod 101)) cfg0 (constPU_lawful _ _) (by decide)
    [1, 1] (by decide)

/-- C2: Verifier.verify accepts exactly when, for every round, the
authentication check, the fold-consistency check and the proof-of-work
check pass, the final degree/evaluation check passes, and the transcript
and proof have the expected round structure; any single failing check
yields a reject, and the Boolean return value carries no indication of
which check failed. -/
theorem C2_verify_iff_checks {F : Type} [Field F] [DecidableEq F] [Encodable F]
    (PU : PolyUtils F) (cfg : StirConfig) (t : List (List Nat)) (pf : StirProof F) :
    Verifier.verify PU cfg t pf = true ↔
      t.length = 2 * cfg.numRounds + 1 ∧
      pf.merkleProofs.length = cfg.numRounds - 1 ∧
      (∀ i, i < cfg.numRounds - 1 →
        authOk cfg t pf i = true ∧ foldOk PU cfg t pf i = true ∧
          powOk cfg t i = true) ∧
      finalOk PU cfg t pf = true := by
  unfold Verifier.verify
  simp only [Bool.and_eq_true, decide_eq_true_eq, List.all_eq_true, List.mem_range]
  constructor
  · rintro ⟨⟨⟨h1, h2⟩, h3⟩, h4⟩
    refine ⟨h1, h2, ?_, h4⟩
    intro i hi
    obtain ⟨⟨ha, hf⟩, hw⟩ := h3 i hi
    exact ⟨ha, hf, hw⟩
  · rintro ⟨h1, h2, h3, h4⟩
    refine ⟨⟨⟨h1, h2⟩, ?_⟩, h4⟩
    intro i hi
    obtain ⟨ha, hf, hw⟩ := h3 i hi
    exact ⟨⟨ha, hf⟩, hw⟩

/-- C3: Round-count law: for every accepted configuration, the honest
proof contains exactly (number of rounds - 1) entries, and each entry's
opened leaves number the round's query count times the coset size. -/
theorem C3_round_count {F : Type} [Field F] [DecidableEq F] [Encodable F]
    (PU : PolyUtils F) (cfg : StirConfig) (L : PU.Lawful cfg.foldingFactor)
    (hv : cfg.Valid) (p0 : List F) (hp : p0.length ≤ 2 ^ cfg.logDegree) :
    (runStir PU cfg p0).1.merkleProofs.length = cfg.numRounds - 1 ∧
      ∀ b, b < cfg.numRounds - 1 →
        ((entryAt (runStir PU cfg p0).1 b).2.map List.length).sum =
          nQueries cfg b * 2 ^ cfg.foldingFactor :=
  stir_shape_core PU cfg L hv p0 hp

/-- Witness for C3 at the concrete two-round configuration. -/
theorem C3_round_count_witness :
    (runStir (constPU (ZMod 101)) cfg0 [1, 1]).1.merkleProofs.length =
        cfg0.numRounds - 1 ∧
      ∀ b, b < cfg0.numRounds - 1 →
        ((entryAt (runStir (constPU (ZMod 101)) cfg0 [1, 1]).1 b).2.map
          List.length).sum = nQueries cfg0 b * 2 ^ cfg0.foldingFactor :=
  C3_round_count (constPU (ZMod 101)) cfg0 (constPU_lawful _ _) (by decide)
    [1, 1] (by decide)

/-- C4: Transcript determinism of verification: any two verification
outcomes obtained from the identical configuration, transcript and proof
are equal; Verifier.verify is a pure function of these inputs and uses no
other randomness. -/
theorem C4_verify_deterministic {F : Type} [Field F] [DecidableEq F] [Encodable F]
    (PU : PolyUtils F) (cfg : StirConfig) (t : List (List Nat)) (pf : StirProof F)
    (b1 b2 : Bool) (h1 : Verifier.verify PU cfg t pf = b1)
    (h2 : Verifier.verify PU cfg t pf = b2) : b1 = b2 := by
  rw [← h1, ← h2]

/-- Witness for C4: two runs on the empty transcript and empty proof both
produce reject. -/
theorem C4_verify_deterministic_witness : (false : Bool) = false :=
  C4_verify_deterministic (constPU (ZMod 101)) cfg0 [] ⟨[]⟩ false false
    (by decide) (by decide)

/-- C5: parameter derivation succeeds exactly when the degree and folding
factor produce at least one round, the derived domain sizes stay positive,
and the regime's minimum-rate constraint holds; it fails with a
configuration error exactly in the complementary cases.  Proving and
verifying cannot raise this error: their types carry no error channel. -/
theorem C5_config_error_iff (up : UnivariateParameters) (pp : ProtocolParameters) :
    (∃ cfg, StirConfig.new up pp = Except.ok cfg) ↔
      ¬(up.logDegree / pp.foldingFactor < 1) ∧
      ¬(up.logDegree + pp.startingLogInvRate <
          pp.foldingFactor * (up.logDegree / pp.foldingFactor - 1) + 1) ∧
      ¬(pp.startingLogInvRate <
          regimeMinLogInvRate pp.soundnessType pp.foldingFactor) := by
  unfold StirConfig.new
  split_ifs with h1 h2 h3
  · simp [h1]
  · simp [h2]
  · simp [h3]
  · simp [h1, h2, h3]

/-- C6: stir_proof_size returns exactly the transcript's length plus the
serialized length of the proof, as in the sources. -/
theorem C6_stir_proof_size {F : Type} [Encodable F] (transcript : List Nat)
    (pf : StirProof F) :
    stir_proof_size transcript pf = transcript.length + serializedSize pf :=
  rfl

/-- C7: the StirProof wire object consists exactly of the ordered sequence
of (multi-path, opened leaf groups) pairs and nothing else: projecting the
sequence out of the container is a bijection, so the container holds no
final polynomial and no transcript. -/
theorem C7_proof_content (F : Type) :
    Function.Bijective (fun pf : StirProof F => pf.merkleProofs) := by
  constructor
  · intro a b h
    cases a
    cases b
    exact congrArg StirProof.mk h
  · intro l
    exact ⟨⟨l⟩, rfl⟩

/-- C8: the fold type is a prover-side strategy with no protocol-semantic
effect: under configurations differing only in fold type, the honest runs
produce identical proofs and transcripts, and the verifier accepts both. -/
theorem C8_foldtype_no_effect {F : Type} [Field F] [DecidableEq F] [Encodable F]
    (PU : PolyUtils F) (cfg : StirConfig) (L : PU.Lawful cfg.foldingFactor)
    (hv : cfg.Valid) (p0 : List F) (hp : p0.length ≤ 2 ^ cfg.logDegree) :
    runStir PU { cfg with foldOptimisation := FoldType.Naive } p0 =
        runStir PU { cfg with foldOptimisation := FoldType.ProverHelps } p0 ∧
      Verifier.verify PU { cfg with foldOptimisation := FoldType.Naive }
        (runStir PU { cfg with foldOptimisation := FoldType.Naive } p0).2
        (runStir PU { cfg with foldOptimisation := FoldType.Naive } p0).1 = true ∧
      Verifier.verify PU { cfg with foldOptimisation := FoldType.ProverHelps }
        (runStir PU { cfg with foldOptimisation := FoldType.ProverHelps } p0).2
        (runStir PU { cfg with foldOptimisation := FoldType.ProverHelps } p0).1 =
          true := by
  refine ⟨runStir_foldtype L p0, ?_, ?_⟩
  · exact stir_complete_core PU { cfg with foldOptimisation := FoldType.Naive }
      L hv p0 hp
  · exact stir_complete_core PU { cfg with foldOptimisation := FoldType.ProverHelps }
      L hv p0 hp

/-- Witness for C8 at the concrete two-round configuration: both fold
types yield the identical proof and transcript. -/
theorem C8_foldtype_no_effect_witness :
    runStir (constPU (ZMod 101)) { cfg0 with foldOptimisation := FoldType.Naive }
        [1, 1] =
      runStir (constPU (ZMod 101))
        { cfg0 with foldOptimisation := FoldType.ProverHelps } [1, 1] :=
  (C8_foldtype_no_effect (constPU (ZMod 101)) cfg0 (constPU_lawful _ _)
    (by decide) [1, 1] (by decide)).1

/-- C9: Scenario completeness: with degree bound two to the 16 and the
all-ones constant-coefficient polynomial, the verifier accepts both under
folding factor 4, regime ProvableList, proof-of-work bits 5, and under
folding factor 5, regime UniqueDecoding, proof-of-work bits 0. -/
theorem C9_scenarios :
    Verifier.verify (constPU (ZMod 101)) cfgScenario1
        (runStir (constPU (ZMod 101)) cfgScenario1 onesPoly).2
        (runStir (constPU (ZMod 101)) cfgScenario1 onesPoly).1 = true ∧
      Verifier.verify (constPU (ZMod 101)) cfgScenario2
        (runStir (constPU (ZMod 101)) cfgScenario2 onesPoly).2
        (runStir (constPU (ZMod 101)) cfgScenario2 onesPoly).1 = true := by
  constructor
  · exact stir_complete_core (constPU (ZMod 101)) cfgScenario1
      (constPU_lawful _ _) (by decide) onesPoly
      (by rw [onesPoly, List.length_replicate]; exact Nat.le_refl _)
  · exact stir_complete_core (constPU (ZMod 101)) cfgScenario2
      (constPU_lawful _ _) (by decide) onesPoly
      (by rw [onesPoly, List.length_replicate]; exact Nat.le_refl _)

/-- C10: serialization round-trip: deserializing the canonical
serialization of any StirProof returns the original proof. -/
theorem C10_serialization_roundtrip {F : Type} [Encodable F] (pf : StirProof F) :
    deserProof (serProof pf) = some pf := by
  obtain ⟨l⟩ := pf
  have h := readEntries_append (F := F) l []
  rw [List.append_nil] at h
  simp only [deserProof, serProof]
  rw [h]

end StirVerification
